import Mathlib

/-!
Verification of the ICS merge/serve core of the edt-utcapitole-exporter
repository (file `index.ts` of the calendar server: `parseICS`, `mergeICS`,
`getLatestICS` and the request handler), against its natural-language
specification.

Modelling conventions:
* Raw document text is `List Char`; JavaScript `split('\n')` is `splitOnNl`,
  `join('\n')` is `joinNl`.
* The regex matches of the source are modelled exactly:
  `icsContent.match(/^([\s\S]*?)BEGIN:VEVENT/m)` captures the text before the
  first occurrence of the literal `BEGIN:VEVENT`; `/END:VEVENT([\s\S]*?)$/m`
  captures the text after the first occurrence of `END:VEVENT` up to the next
  line end (lazy quantifier and multiline `$`); `/UID:(.+)/` captures the rest
  of the line after the first occurrence of `UID:` that is followed by at
  least one non-newline character. First occurrences are computed by
  `splitFirst`.
* `String.prototype.trim` is modelled on ASCII whitespace (`jsTrim`).
* `Math.random().toString()` keys of the dedup `Map` are modelled as fresh
  synthetic keys (`Sum.inr` of a counter), assumed collision-free, which is
  the intent of the source; UID keys are `Sum.inl`.
* The replacement string `` `$1${mergedName}` `` of the title rewrite is
  modelled as the captured group followed by the name; dollar-escape
  sequences that a name could smuggle into the JavaScript replacement
  pattern are not modelled.
* The filesystem is a finite tree `FSTree`; `readdir` lists entry names in
  tree order, `readFile` succeeds exactly on files, and every thrown error
  that the source catches is an `Option.none` here.  `localeCompare`-based
  sorting is modelled as sorting by Unicode code point order (Mathlib's
  linear order on `String`), which coincides with it on the ASCII
  date-directory names the exporter produces.
-/

/-- The line separator used by `split('\n')` / `join('\n')`. -/
def nlChar : Char := '\n'

/-- ASCII whitespace, modelling the character class trimmed by
`String.prototype.trim`. -/
def isWs (c : Char) : Bool :=
  c == ' ' || c == '\t' || c == '\n' || c == '\r' || c == '\x0b' || c == '\x0c'

/-- Model of `String.prototype.trim`: drop whitespace from both ends. -/
def jsTrim (l : List Char) : List Char :=
  ((l.dropWhile isWs).reverse.dropWhile isWs).reverse

/-- Model of `icsContent.split('\n')`. -/
def splitOnNl : List Char → List (List Char)
  | [] => [[]]
  | c :: cs =>
    if c = nlChar then [] :: splitOnNl cs
    else
      match splitOnNl cs with
      | [] => [[c]]
      | l :: ls => (c :: l) :: ls

/-- Model of `array.join('\n')`. -/
def joinNl : List (List Char) → List Char
  | [] => []
  | [l] => l
  | l :: l2 :: ls => l ++ nlChar :: joinNl (l2 :: ls)

/-- Every line of `ls` followed by a newline, concatenated.  Used to build
documents whose every line is newline-terminated. -/
def linesJoin (ls : List (List Char)) : List Char :=
  (ls.map (fun l => l ++ [nlChar])).flatten

/-- First-occurrence search: `splitFirst p s = some (a, b)` when `s = a ++ p ++ b`
and this is the leftmost occurrence of `p` in `s`; `none` when `p` does not
occur.  This is how the JavaScript regex engine resolves the source's
`match` calls on literal patterns. -/
def splitFirst (p : List Char) : List Char → Option (List Char × List Char)
  | [] => if p.isPrefixOf [] then some ([], []) else none
  | c :: cs =>
    if p.isPrefixOf (c :: cs) then some ([], (c :: cs).drop p.length)
    else (splitFirst p cs).map (fun ab => (c :: ab.1, ab.2))

/-- The `BEGIN:VEVENT` marker. -/
def beginMarker : List Char := "BEGIN:VEVENT".toList

/-- The `END:VEVENT` marker. -/
def endMarker : List Char := "END:VEVENT".toList

/-- The loop body of `parseICS`: walks the lines, carrying `currentEvent`
and `inEvent`, emitting `currentEvent.join('\n')` at each `END:VEVENT`
line.  Faithful to the source: the end-marker branch does not test
`inEvent`. -/
def parseICSAux : List (List Char) → List (List Char) → Bool → List (List Char)
  | [], _, _ => []
  | l :: ls, cur, inEvent =>
    if jsTrim l = beginMarker then parseICSAux ls [l] true
    else if jsTrim l = endMarker then
      joinNl (cur ++ [l]) :: parseICSAux ls [] false
    else if inEvent then parseICSAux ls (cur ++ [l]) inEvent
    else parseICSAux ls cur inEvent

/-- `parseICS`: split the document into lines and extract the event blocks. -/
def parseICS (icsContent : List Char) : List (List Char) :=
  parseICSAux (splitOnNl icsContent) [] false

/-- The group captured by `event.match(/UID:(.+)/)`: the rest of the line
after the first occurrence of `UID:` that is followed by at least one
non-newline character (the regex engine skips occurrences where `.+` has
nothing to match). -/
def findUIDraw : List Char → Option (List Char)
  | [] => none
  | c :: cs =>
    if "UID:".toList.isPrefixOf (c :: cs) then
      match ((c :: cs).drop 4).takeWhile (fun d => decide (d ≠ nlChar)) with
      | [] => findUIDraw cs
      | v :: vs => some (v :: vs)
    else findUIDraw cs

/-- The deduplication identifier of an event: the captured UID group,
trimmed (`uidMatch[1].trim()`). -/
def findUID (e : List Char) : Option (List Char) :=
  (findUIDraw e).map jsTrim

/-- Keys of the dedup `Map`: either a (trimmed) UID, or a synthetic fresh
key standing for `Math.random().toString()`. -/
abbrev MergeKey := List Char ⊕ Nat

/-- Whether the map already holds a key (`uniqueEvents.has(uid)`). -/
def hasKey (acc : List (MergeKey × List Char)) (k : MergeKey) : Bool :=
  acc.any (fun kv => decide (kv.1 = k))

/-- The dedup loop of `mergeICS` over the concatenated event list, with the
`Map` modelled as an insertion-ordered association list and the counter
supplying fresh synthetic keys. -/
def dedupAux : List (List Char) → Nat → List (MergeKey × List Char) →
    List (MergeKey × List Char)
  | [], _, acc => acc
  | e :: es, n, acc =>
    match findUID e with
    | some u =>
      if hasKey acc (Sum.inl u) then dedupAux es n acc
      else dedupAux es n (acc ++ [(Sum.inl u, e)])
    | none => dedupAux es (n + 1) (acc ++ [(Sum.inr n, e)])

/-- `Array.from(uniqueEvents.values())` for the events of the given source
documents: parse every source, concatenate, dedup by UID keeping the first
occurrence. -/
def mergedEvents (icsFiles : List (List Char)) : List (List Char) :=
  (dedupAux (icsFiles.flatMap parseICS) 0 []).map Prod.snd

/-- The header captured from one file:
`icsContent.match(/^([\s\S]*?)BEGIN:VEVENT/m)` — everything before the first
occurrence of `BEGIN:VEVENT`, or nothing when the marker is absent (the
falsy-group and no-match cases coincide in value). -/
def headerOf (icsContent : List Char) : List Char :=
  match splitFirst beginMarker icsContent with
  | some ab => ab.1
  | none => []

/-- The footer captured from one file:
`icsContent.match(/END:VEVENT([\s\S]*?)$/m)` — the text after the first
occurrence of `END:VEVENT` up to the end of that line (lazy quantifier with
multiline `$`), or nothing when the marker is absent. -/
def footerOf (icsContent : List Char) : List Char :=
  match splitFirst endMarker icsContent with
  | some ab => ab.2.takeWhile (fun d => decide (d ≠ nlChar))
  | none => []

/-- The header/footer accumulation of `mergeICS`'s loop: guarded by
`if (!header)`, each of the two captures is kept only when non-empty
(JavaScript truthiness). -/
def collectHF : List (List Char) → List Char × List Char → List Char × List Char
  | [], hf => hf
  | f :: fs, (h, ft) =>
    if h = [] then
      collectHF fs
        ((if headerOf f ≠ [] then headerOf f else h),
         (if footerOf f ≠ [] then footerOf f else ft))
    else collectHF fs (h, ft)

/-- `header.replace(/(X-WR-CALNAME:).*/, ...)`: rewrite the rest of the line
after the first occurrence of `X-WR-CALNAME:` to the merged name. -/
def calNameMarker : List Char := "X-WR-CALNAME:".toList

/-- The title rewrite of `mergeICS`. -/
def replaceCalName (header mergedName : List Char) : List Char :=
  match splitFirst calNameMarker header with
  | some ab =>
    ab.1 ++ calNameMarker ++ mergedName ++
      ab.2.dropWhile (fun d => decide (d ≠ nlChar))
  | none => header

/-- `mergeICS`: updated header + deduplicated events joined by newlines +
newline + footer. -/
def mergeICS (icsFiles : List (List Char)) (mergedName : List Char) : List Char :=
  (replaceCalName (collectHF icsFiles ([], [])).1 mergedName) ++
    joinNl (mergedEvents icsFiles) ++ nlChar :: (collectHF icsFiles ([], [])).2

/-- Reader for the calendar-title field of a document: the rest of the line
after the first `X-WR-CALNAME:` occurrence.  Spec-side definition used to
state what "the calendar-title field value" of an output document is. -/
def calNameValue (doc : List Char) : Option (List Char) :=
  (splitFirst calNameMarker doc).map
    (fun ab => ab.2.takeWhile (fun d => decide (d ≠ nlChar)))

/-- Parsing a single document and reassembling it the way `mergeICS`
assembles a single-source merge, before the title rewrite:
header + parsed events joined by newlines + newline + footer. -/
def reassemble (d : List Char) : List Char :=
  (collectHF [d] ([], [])).1 ++ joinNl (parseICS d) ++
    nlChar :: (collectHF [d] ([], [])).2

/-- A finite filesystem tree: leaves are file contents, inner nodes list
their entries in `readdir` order. -/
inductive FSTree where
  | file : List Char → FSTree
  | dir : List (String × FSTree) → FSTree

/-- Path step: the child of a directory, `none` on files and missing names
(the corresponding `readdir`/`readFile` call throws and the source catches). -/
def childOf : FSTree → String → Option FSTree
  | FSTree.file _, _ => none
  | FSTree.dir es, n => (es.find? (fun e => decide (e.1 = n))).map Prod.snd

/-- `readdir`: entry names of a directory, `none` on a file. -/
def readdirNames : FSTree → Option (List String)
  | FSTree.file _ => none
  | FSTree.dir es => some (es.map Prod.fst)

/-- `readFile`: contents of a file, `none` on a directory. -/
def readFileOpt : FSTree → Option (List Char)
  | FSTree.file c => some c
  | FSTree.dir _ => none

/-- `files.find((f) => f.endsWith('.ics'))`. -/
def findIcsName (ns : List String) : Option String :=
  ns.find? (fun f => ".ics".toList.isSuffixOf f.toList)

/-- List the given directory, pick the first `.ics`-suffixed entry name and
read it; any failure along the way is `none`. -/
def readIcsIn (t : FSTree) : Option (List Char) :=
  (readdirNames t).bind fun ns =>
    (findIcsName ns).bind fun f => (childOf t f).bind readFileOpt

/-- Strategy 1 of `getLatestICS`: the direct calendar folder. -/
def strat1 (exportT : FSTree) (calendarName : String) : Option (List Char) :=
  (childOf exportT calendarName).bind readIcsIn

/-- One probe of strategy 2: `export/<dateDir>/<calendarName>/`. -/
def tryDated (exportT : FSTree) (dateDir calendarName : String) :
    Option (List Char) :=
  (childOf exportT dateDir).bind fun dt => (childOf dt calendarName).bind readIcsIn

/-- Code-point lexicographic order on character lists, the model of the
`localeCompare` comparison on the ASCII directory names at hand. -/
def lexLe : List Char → List Char → Bool
  | [], _ => true
  | _ :: _, [] => false
  | x :: xs, y :: ys => if x = y then lexLe xs ys else decide (x < y)

/-- Insert into a descending-sorted list, modelling one step of
`sort((a, b) => b.localeCompare(a))`. -/
def insertDesc (x : String) : List String → List String
  | [] => [x]
  | y :: ys => if lexLe y.toList x.toList then x :: y :: ys else y :: insertDesc x ys

/-- Sort names in descending order, modelling
`dateDirectories.sort((a, b) => b.localeCompare(a))`. -/
def sortDesc : List String → List String
  | [] => []
  | x :: xs => insertDesc x (sortDesc xs)

/-- First success of a probe over a list of directory names. -/
def firstSome (f : String → Option (List Char)) : List String → Option (List Char)
  | [] => none
  | d :: ds =>
    match f d with
    | some c => some c
    | none => firstSome f ds

/-- Strategy 2 of `getLatestICS`: hyphen-containing entries of the export
root (the unused `Bun.file(...).exists()` stat of the source is dropped),
sorted descending, probed in order. -/
def strat2 (exportT : FSTree) (calendarName : String) : Option (List Char) :=
  (readdirNames exportT).bind fun ns =>
    firstSome (fun d => tryDated exportT d calendarName)
      (sortDesc (ns.filter (fun d => d.toList.any (fun c => decide (c = '-')))))

/-- `getLatestICS`: direct folder first, then dated folders, else `null`.
A missing or unreadable export root makes both strategies return `none`,
which is the source's outer catch-and-return-null. -/
def getLatestICS (exportT : FSTree) (calendarName : String) : Option (List Char) :=
  match strat1 exportT calendarName with
  | some c => some c
  | none => strat2 exportT calendarName

/-- An HTTP response of the calendar route: status and body text. -/
structure Resp where
  status : Nat
  body : List Char
  deriving DecidableEq

/-- `CALENDAR_MERGES[name]` on the merge mapping, modelled as an
insertion-ordered association list. -/
def lookupMerge (merges : List (String × List String)) (name : String) :
    Option (List String) :=
  (merges.find? (fun e => decide (e.1 = name))).map Prod.snd

/-- The source-resolution loop of the merge branch: fetch each source via
the locator and keep the truthy (non-empty) contents, in order. -/
def resolvedContents (exportT : FSTree)
    (sources : List String) : List (List Char) :=
  sources.filterMap fun s =>
    (getLatestICS exportT s).bind fun c => if c = [] then none else some c

/-- The `/calendar/<name>` branch of the server's `fetch` handler under the
own-key reading of `CALENDAR_MERGES[calendarName]` (see `jsIndexMerges` and
`handleCalendarJs` for the full property access including the prototype
chain): empty name is a 400; a merge-mapping key is served by the merge
engine over the resolved sources (404 naming the merge target when none
resolve); otherwise the raw export is served when truthy (non-empty), or a
404. -/
def handleCalendar (merges : List (String × List String)) (exportT : FSTree)
    (calendarName : String) : Resp :=
  if calendarName = "" then ⟨400, "Calendar name required".toList⟩
  else
    match lookupMerge merges calendarName with
    | some sourceCalendars =>
      if resolvedContents exportT sourceCalendars = [] then
        ⟨404, "No calendars found for merged calendar \"".toList ++
          calendarName.toList ++ "\"".toList⟩
      else
        ⟨200, mergeICS (resolvedContents exportT sourceCalendars)
          calendarName.toList⟩
    | none =>
      match getLatestICS exportT calendarName with
      | some c =>
        if c = [] then ⟨404, "Calendar not found".toList⟩ else ⟨200, c⟩
      | none => ⟨404, "Calendar not found".toList⟩

/-- The own property names of `Object.prototype`.  `CALENDAR_MERGES` is a
plain object literal, so indexing it with any of these names yields the
inherited function (or, for `__proto__`, the prototype object) — a truthy,
non-iterable value. -/
def objectProtoProps : List String :=
  ["constructor", "hasOwnProperty", "isPrototypeOf", "propertyIsEnumerable",
   "toLocaleString", "toString", "valueOf", "__proto__", "__defineGetter__",
   "__defineSetter__", "__lookupGetter__", "__lookupSetter__"]

/-- The three possible outcomes of the property access
`CALENDAR_MERGES[calendarName]` on a plain object literal: an own key
(value the configured array of sources), an inherited truthy non-iterable
`Object.prototype` member, or `undefined` (falsy). -/
inductive MergeLookup where
  | ownArray : List String → MergeLookup
  | inherited : MergeLookup
  | absent : MergeLookup
  deriving DecidableEq

/-- `CALENDAR_MERGES[calendarName]` with the JavaScript prototype chain:
own keys shadow inherited names. -/
def jsIndexMerges (merges : List (String × List String)) (name : String) :
    MergeLookup :=
  match merges.find? (fun e => decide (e.1 = name)) with
  | some e => MergeLookup.ownArray e.2
  | none =>
    if name ∈ objectProtoProps then MergeLookup.inherited
    else MergeLookup.absent

/-- Outcome of one request to the calendar route: a response, or a thrown
exception escaping the route handler (the `for...of` over a non-iterable
inherited value raises a TypeError, so the server surfaces an error instead
of a calendar response). -/
inductive HandlerOutcome where
  | resp : Resp → HandlerOutcome
  | thrown : HandlerOutcome
  deriving DecidableEq

/-- The `/calendar/<name>` branch of the server's `fetch` handler with the
full semantics of the `CALENDAR_MERGES[calendarName]` property access: an
inherited `Object.prototype` name makes the truthiness test at the merge
branch pass and the subsequent `for...of` over the non-iterable inherited
value throw. -/
def handleCalendarJs (merges : List (String × List String)) (exportT : FSTree)
    (calendarName : String) : HandlerOutcome :=
  if calendarName = "" then
    HandlerOutcome.resp ⟨400, "Calendar name required".toList⟩
  else
    match jsIndexMerges merges calendarName with
    | MergeLookup.ownArray sourceCalendars =>
      if resolvedContents exportT sourceCalendars = [] then
        HandlerOutcome.resp ⟨404,
          "No calendars found for merged calendar \"".toList ++
            calendarName.toList ++ "\"".toList⟩
      else
        HandlerOutcome.resp ⟨200,
          mergeICS (resolvedContents exportT sourceCalendars)
            calendarName.toList⟩
    | MergeLookup.inherited => HandlerOutcome.thrown
    | MergeLookup.absent =>
      match getLatestICS exportT calendarName with
      | some c =>
        if c = [] then HandlerOutcome.resp ⟨404, "Calendar not found".toList⟩
        else HandlerOutcome.resp ⟨200, c⟩
      | none => HandlerOutcome.resp ⟨404, "Calendar not found".toList⟩

/-! ## Line-splitting and joining lemmas -/

theorem splitOnNl_ne_nil (s : List Char) : splitOnNl s ≠ [] := by
  match s with
  | [] => simp [splitOnNl]
  | c :: cs =>
    rw [splitOnNl]
    by_cases h : c = nlChar
    · simp [h]
    · simp only [h, if_false]
      match hrec : splitOnNl cs with
      | [] => simp
      | l :: ls => simp

theorem splitOnNl_append_line (l r : List Char) (hl : nlChar ∉ l) :
    splitOnNl (l ++ nlChar :: r) = l :: splitOnNl r := by
  induction l with
  | nil => simp [splitOnNl]
  | cons c cs ih =>
    have hc : c ≠ nlChar := fun h => hl (h ▸ List.mem_cons_self c cs)
    have ih2 := ih (fun h => hl (List.mem_cons_of_mem c h))
    rw [List.cons_append, splitOnNl, if_neg hc, ih2]

theorem linesJoin_nil : linesJoin [] = [] := rfl

theorem linesJoin_cons (l : List Char) (ls : List (List Char)) :
    linesJoin (l :: ls) = l ++ nlChar :: linesJoin ls := by
  simp [linesJoin]

theorem linesJoin_append (A B : List (List Char)) :
    linesJoin (A ++ B) = linesJoin A ++ linesJoin B := by
  simp [linesJoin]

theorem splitOnNl_linesJoin (ls : List (List Char)) (s : List Char)
    (h : ∀ l ∈ ls, nlChar ∉ l) :
    splitOnNl (linesJoin ls ++ s) = ls ++ splitOnNl s := by
  induction ls with
  | nil => simp [linesJoin]
  | cons l ls ih =>
    rw [linesJoin_cons, List.append_assoc, List.cons_append,
      splitOnNl_append_line _ _ (h l (List.mem_cons_self l ls)),
      ih (fun x hx => h x (List.mem_cons_of_mem l hx))]
    simp

theorem joinNl_cons_cons (l l2 : List Char) (ls : List (List Char)) :
    joinNl (l :: l2 :: ls) = l ++ nlChar :: joinNl (l2 :: ls) := rfl

theorem joinNl_append (A B : List (List Char)) (hA : A ≠ []) (hB : B ≠ []) :
    joinNl (A ++ B) = joinNl A ++ nlChar :: joinNl B := by
  induction A with
  | nil => exact absurd rfl hA
  | cons a A ih =>
    match A with
    | [] =>
      match B with
      | b :: B2 => simp [joinNl]
    | a2 :: A2 =>
      have h2 := ih (by simp)
      have hstep : a :: a2 :: A2 ++ B = a :: (a2 :: A2 ++ B) := rfl
      rw [hstep, show a2 :: A2 ++ B = a2 :: (A2 ++ B) from rfl,
        joinNl_cons_cons, show a2 :: (A2 ++ B) = a2 :: A2 ++ B from rfl, h2,
        joinNl_cons_cons]
      simp

theorem linesJoin_eq_joinNl (ls : List (List Char)) (h : ls ≠ []) :
    linesJoin ls = joinNl ls ++ [nlChar] := by
  induction ls with
  | nil => exact absurd rfl h
  | cons l ls ih =>
    match ls with
    | [] => simp [linesJoin, joinNl]
    | l2 :: ls2 =>
      rw [linesJoin_cons, ih (by simp), joinNl]
      simp

/-! ## First-occurrence lemmas for `splitFirst` -/

/-- No occurrence of `p` starts strictly before position `a.length` in
`a ++ p` (hence none in any `a ++ p ++ b`). -/
def NoEarly (p a : List Char) : Prop :=
  ∀ i, i < a.length → ¬ p <+: (a ++ p).drop i

theorem prefix_append_left {p x y : List Char} (h : p <+: x ++ y)
    (hl : p.length ≤ x.length) : p <+: x := by
  have hp := List.prefix_iff_eq_take.mp h
  rw [List.take_append_eq_append_take, Nat.sub_eq_zero_of_le hl,
    List.take_zero, List.append_nil] at hp
  exact hp ▸ List.take_prefix _ _

theorem mem_of_prefix_long {p x y : List Char} {c : Char}
    (h : p <+: x ++ c :: y) (hl : x.length < p.length) : c ∈ p := by
  have hp := List.prefix_iff_eq_take.mp h
  rw [List.take_append_eq_append_take] at hp
  have h1 : p.length - x.length = (p.length - x.length - 1) + 1 := by omega
  rw [h1, List.take_succ_cons] at hp
  rw [hp]
  exact List.mem_append_right _ (List.mem_cons_self _ _)

theorem splitFirst_eq_some {p s a b : List Char}
    (h : splitFirst p s = some (a, b)) : s = a ++ p ++ b ∧ NoEarly p a := by
  induction s generalizing a b with
  | nil =>
    rw [splitFirst] at h
    by_cases hp : p.isPrefixOf ([] : List Char)
    · rw [if_pos hp] at h
      simp only [Option.some.injEq, Prod.mk.injEq] at h
      obtain ⟨ha, hb⟩ := h
      subst ha
      subst hb
      have hpnil : p = [] :=
        List.prefix_nil.mp (List.isPrefixOf_iff_prefix.mp hp)
      exact ⟨by simp [hpnil], fun i hi => by simp at hi⟩
    · rw [if_neg hp] at h
      exact absurd h (by simp)
  | cons c cs ih =>
    rw [splitFirst] at h
    by_cases hp : p.isPrefixOf (c :: cs)
    · rw [if_pos hp] at h
      simp only [Option.some.injEq, Prod.mk.injEq] at h
      obtain ⟨ha, hb⟩ := h
      subst ha
      subst hb
      have hs : p ++ (c :: cs).drop p.length = c :: cs :=
        List.prefix_iff_eq_append.mp (List.isPrefixOf_iff_prefix.mp hp)
      exact ⟨by simpa using hs.symm, fun i hi => by simp at hi⟩
    · rw [if_neg hp] at h
      match hrec : splitFirst p cs with
      | none => rw [hrec] at h; exact absurd h (by simp)
      | some (a1, b1) =>
        rw [hrec] at h
        simp only [Option.map_some', Option.some.injEq, Prod.mk.injEq] at h
        obtain ⟨ha, hb⟩ := h
        subst ha
        subst hb
        obtain ⟨hcs, hne⟩ := ih hrec
        subst hcs
        refine ⟨by simp, ?_⟩
        intro i hi
        match i with
        | 0 =>
          intro hpre
          apply hp
          apply List.isPrefixOf_iff_prefix.mpr
          have h2 : p <+: (c :: a1) ++ p := by simpa using hpre
          have h3 : p <+: ((c :: a1) ++ p) ++ (b1 : List Char) :=
            h2.trans (List.prefix_append _ _)
          simpa using h3
        | Nat.succ j =>
          intro hpre
          simp only [List.length_cons, Nat.succ_lt_succ_iff] at hi
          exact hne j hi (by simpa using hpre)

theorem splitFirst_of_noEarly {p a b : List Char} (h : NoEarly p a) :
    splitFirst p (a ++ p ++ b) = some (a, b) := by
  induction a with
  | nil =>
    cases hpb : p ++ b with
    | nil =>
      obtain ⟨hp, hb⟩ := List.append_eq_nil.mp hpb
      subst hp
      subst hb
      simp [splitFirst]
    | cons c cs =>
      have h0 : ([] : List Char) ++ p ++ b = p ++ b := by simp
      rw [h0, hpb, splitFirst,
        if_pos (List.isPrefixOf_iff_prefix.mpr (hpb ▸ List.prefix_append p b))]
      rw [← hpb, List.drop_left]
  | cons c a ih =>
    have hstep : c :: a ++ p ++ b = c :: (a ++ p ++ b) := by simp
    rw [hstep, splitFirst]
    have hnp : ¬ p.isPrefixOf (c :: (a ++ p ++ b)) := by
      intro hp
      have hpre := List.isPrefixOf_iff_prefix.mp hp
      have h2 : p <+: (c :: (a ++ p)) ++ b := by simpa using hpre
      have h3 : p <+: c :: (a ++ p) :=
        prefix_append_left h2
          (by simp only [List.length_cons, List.length_append]; omega)
      exact h 0 (by simp) (by simpa using h3)
    rw [if_neg hnp]
    have hne : NoEarly p a := by
      intro i hi hpre
      exact h (i + 1) (by simpa using Nat.succ_lt_succ hi) (by simpa using hpre)
    rw [ih hne]
    simp

theorem splitFirst_replace {p s a b b2 : List Char}
    (h : splitFirst p s = some (a, b)) :
    splitFirst p (a ++ p ++ b2) = some (a, b2) :=
  splitFirst_of_noEarly (splitFirst_eq_some h).2

theorem splitFirst_line_step {p l r : List Char} (hnp : nlChar ∉ p)
    (hpne : p ≠ []) (hl : ¬ p <:+: l) :
    splitFirst p (l ++ nlChar :: r)
      = (splitFirst p r).map (fun ab => (l ++ nlChar :: ab.1, ab.2)) := by
  induction l with
  | nil =>
    rw [List.nil_append, splitFirst]
    have hno : ¬ p.isPrefixOf (nlChar :: r) := by
      intro hp
      have hpre := List.isPrefixOf_iff_prefix.mp hp
      match p, hpne, hpre, hnp with
      | q :: qs, _, hpre, hnp =>
        obtain ⟨t, ht⟩ := hpre
        have hq : q = nlChar := by
          have := congrArg List.head? ht
          simpa using this
        exact hnp (hq ▸ List.mem_cons_self q qs)
    rw [if_neg hno]
    match splitFirst p r with
    | none => rfl
    | some ab => rfl
  | cons c l ih =>
    rw [List.cons_append, splitFirst]
    have hno : ¬ p.isPrefixOf (c :: (l ++ nlChar :: r)) := by
      intro hp
      have hpre := List.isPrefixOf_iff_prefix.mp hp
      by_cases hlen : p.length ≤ (c :: l).length
      · have h2 : p <+: (c :: l) ++ nlChar :: r := by simpa using hpre
        exact hl (prefix_append_left h2 hlen).isInfix
      · have h2 : p <+: (c :: l) ++ nlChar :: r := by simpa using hpre
        exact hnp (mem_of_prefix_long h2 (by omega))
    rw [if_neg hno]
    have hl2 : ¬ p <:+: l := fun hx => hl (List.infix_cons hx)
    rw [ih hl2]
    match splitFirst p r with
    | none => rfl
    | some ab => simp

theorem splitFirst_linesJoin {p : List Char} (ls : List (List Char))
    (s : List Char) (hnp : nlChar ∉ p) (hpne : p ≠ [])
    (h : ∀ l ∈ ls, ¬ p <:+: l) :
    splitFirst p (linesJoin ls ++ s)
      = (splitFirst p s).map (fun ab => (linesJoin ls ++ ab.1, ab.2)) := by
  induction ls with
  | nil =>
    simp only [linesJoin_nil, List.nil_append]
    match splitFirst p s with
    | none => rfl
    | some ab => rfl
  | cons l ls ih =>
    rw [linesJoin_cons, List.append_assoc, List.cons_append,
      splitFirst_line_step hnp hpne (h l (List.mem_cons_self l ls)),
      ih (fun x hx => h x (List.mem_cons_of_mem l hx))]
    match splitFirst p s with
    | none => rfl
    | some ab => simp

/-! ## Parser lemmas -/

/-- The state `(currentEvent, inEvent)` of the parse loop after consuming a
list of lines. -/
def parseState : List (List Char) → List (List Char) × Bool →
    List (List Char) × Bool
  | [], st => st
  | l :: ls, (cur, ie) =>
    if jsTrim l = beginMarker then parseState ls ([l], true)
    else if jsTrim l = endMarker then parseState ls ([], false)
    else if ie then parseState ls (cur ++ [l], ie)
    else parseState ls (cur, ie)

theorem parseICSAux_append (xs ys : List (List Char)) (cur : List (List Char))
    (ie : Bool) :
    parseICSAux (xs ++ ys) cur ie
      = parseICSAux xs cur ie ++
        parseICSAux ys (parseState xs (cur, ie)).1 (parseState xs (cur, ie)).2 := by
  induction xs generalizing cur ie with
  | nil => simp [parseICSAux, parseState]
  | cons l ls ih =>
    rw [List.cons_append, parseICSAux, parseICSAux, parseState]
    by_cases h1 : jsTrim l = beginMarker
    · simp only [if_pos h1]
      exact ih _ _
    · simp only [if_neg h1]
      by_cases h2 : jsTrim l = endMarker
      · simp only [if_pos h2, List.cons_append, List.cons.injEq, true_and]
        exact ih _ _
      · simp only [if_neg h2]
        by_cases h3 : ie
        · simp only [if_pos h3]
          exact ih _ _
        · simp only [if_neg h3]
          exact ih _ _

theorem parseICSAux_no_end (ys : List (List Char)) (cur : List (List Char))
    (ie : Bool) (h : ∀ l ∈ ys, jsTrim l ≠ endMarker) :
    parseICSAux ys cur ie = [] := by
  induction ys generalizing cur ie with
  | nil => rfl
  | cons l ls ih =>
    rw [parseICSAux]
    have hend := h l (List.mem_cons_self l ls)
    have hrest : ∀ x ∈ ls, jsTrim x ≠ endMarker :=
      fun x hx => h x (List.mem_cons_of_mem l hx)
    by_cases h1 : jsTrim l = beginMarker
    · simp only [if_pos h1]
      exact ih _ _ hrest
    · simp only [if_neg h1, if_neg hend]
      by_cases h3 : ie
      · simp only [if_pos h3]
        exact ih _ _ hrest
      · simp only [if_neg h3]
        exact ih _ _ hrest

theorem parseState_skip (ls : List (List Char)) (cur : List (List Char))
    (h : ∀ l ∈ ls, jsTrim l ≠ beginMarker ∧ jsTrim l ≠ endMarker) :
    parseState ls (cur, false) = (cur, false) := by
  induction ls with
  | nil => rfl
  | cons l ls ih =>
    rw [parseState]
    obtain ⟨h1, h2⟩ := h l (List.mem_cons_self l ls)
    simp only [if_neg h1, if_neg h2, if_neg (Bool.false_ne_true)]
    exact ih (fun x hx => h x (List.mem_cons_of_mem l hx))

theorem parseICSAux_event (body rest : List (List Char)) (e : List Char)
    (cur : List (List Char))
    (hb : ∀ l ∈ body, jsTrim l ≠ beginMarker ∧ jsTrim l ≠ endMarker)
    (he : jsTrim e = endMarker) :
    parseICSAux (body ++ e :: rest) cur true
      = joinNl (cur ++ body ++ [e]) :: parseICSAux rest [] false := by
  induction body generalizing cur with
  | nil =>
    have hne : jsTrim e ≠ beginMarker := by
      rw [he]
      decide
    rw [List.nil_append, parseICSAux, if_neg hne, if_pos he]
    simp
  | cons b body ih =>
    obtain ⟨h1, h2⟩ := hb b (List.mem_cons_self b body)
    rw [List.cons_append, parseICSAux, if_neg h1, if_neg h2, if_pos rfl,
      ih _ (fun x hx => hb x (List.mem_cons_of_mem b hx))]
    simp

/-- The line block of one well-formed event: exact markers around a body. -/
def evLines (body : List (List Char)) : List (List Char) :=
  beginMarker :: body ++ [endMarker]

theorem parseICSAux_events (bodies : List (List (List Char)))
    (tail : List (List Char))
    (hb : ∀ bd ∈ bodies, ∀ l ∈ bd, jsTrim l ≠ beginMarker ∧ jsTrim l ≠ endMarker)
    (htail : ∀ l ∈ tail, jsTrim l ≠ endMarker) :
    parseICSAux ((bodies.map evLines).flatten ++ tail) [] false
      = bodies.map (fun bd => joinNl (evLines bd)) := by
  induction bodies with
  | nil =>
    simp only [List.map_nil, List.flatten_nil, List.nil_append]
    exact parseICSAux_no_end _ _ _ htail
  | cons bd bodies ih =>
    have hstep : ((bd :: bodies).map evLines).flatten ++ tail
        = beginMarker :: (bd ++ endMarker ::
            ((bodies.map evLines).flatten ++ tail)) := by
      simp [evLines]
    rw [hstep, parseICSAux, if_pos (by decide : jsTrim beginMarker = beginMarker),
      parseICSAux_event bd _ endMarker [beginMarker]
        (hb bd (List.mem_cons_self bd bodies)) (by decide),
      ih (fun x hx => hb x (List.mem_cons_of_mem bd hx))]
    simp [evLines]

theorem splitOnNl_no_nl (l : List Char) (h : nlChar ∉ l) :
    splitOnNl l = [l] := by
  induction l with
  | nil => rfl
  | cons c cs ih =>
    have hc : c ≠ nlChar := fun hx => h (hx ▸ List.mem_cons_self c cs)
    rw [splitOnNl, if_neg hc, ih (fun hx => h (List.mem_cons_of_mem c hx))]

theorem splitOnNl_joinNl (ls : List (List Char)) (hne : ls ≠ [])
    (h : ∀ l ∈ ls, nlChar ∉ l) :
    splitOnNl (joinNl ls) = ls := by
  induction ls with
  | nil => exact absurd rfl hne
  | cons l ls ih =>
    match ls with
    | [] => exact splitOnNl_no_nl l (h l (List.mem_cons_self l []))
    | l2 :: ls2 =>
      rw [joinNl_cons_cons,
        splitOnNl_append_line _ _ (h l (List.mem_cons_self l _)),
        ih (by simp) (fun x hx => h x (List.mem_cons_of_mem l hx))]

/-- Normal-form document: newline-terminated header lines followed by
newline-terminated event blocks. -/
def normalDoc (hl : List (List Char)) (bodies : List (List (List Char))) :
    List Char :=
  linesJoin (hl ++ (bodies.map evLines).flatten)

theorem parseICS_normal (hl : List (List Char))
    (bodies : List (List (List Char)))
    (hhnl : ∀ l ∈ hl, nlChar ∉ l)
    (hhm : ∀ l ∈ hl, jsTrim l ≠ beginMarker ∧ jsTrim l ≠ endMarker)
    (hbnl : ∀ bd ∈ bodies, ∀ l ∈ bd, nlChar ∉ l)
    (hbm : ∀ bd ∈ bodies, ∀ l ∈ bd, jsTrim l ≠ beginMarker ∧ jsTrim l ≠ endMarker) :
    parseICS (normalDoc hl bodies) = bodies.map (fun bd => joinNl (evLines bd)) := by
  have hall : ∀ l ∈ hl ++ (bodies.map evLines).flatten, nlChar ∉ l := by
    intro l hlmem
    rcases List.mem_append.mp hlmem with h1 | h2
    · exact hhnl l h1
    · obtain ⟨ev, hev, hlev⟩ := List.mem_flatten.mp h2
      obtain ⟨bd, hbd, hevbd⟩ := List.mem_map.mp hev
      subst hevbd
      rcases List.mem_cons.mp hlev with h3 | h3
      · subst h3
        decide
      · rcases List.mem_append.mp h3 with h4 | h4
        · exact hbnl bd hbd l h4
        · rw [List.mem_singleton.mp h4]
          decide
  have hsplit : splitOnNl (normalDoc hl bodies)
      = hl ++ ((bodies.map evLines).flatten ++ [[]]) := by
    have := splitOnNl_linesJoin (hl ++ (bodies.map evLines).flatten) [] hall
    simpa [normalDoc, splitOnNl] using this
  rw [parseICS, hsplit,
    parseICSAux_append hl ((bodies.map evLines).flatten ++ [[]]) [] false,
    parseState_skip hl [] hhm,
    parseICSAux_no_end hl [] false (fun l hlm => (hhm l hlm).2),
    List.nil_append]
  exact parseICSAux_events bodies [[]] hbm
    (by intro l hlm; rw [List.mem_singleton.mp hlm]; decide)

/-! ## Deduplication lemmas -/

/-- Invariant of the dedup accumulator: UID keys mirror the events they
store, synthetic keys are below the counter, and keys are pairwise
distinct. -/
def DedupInv (acc : List (MergeKey × List Char)) (n : Nat) : Prop :=
  (∀ kv ∈ acc, ∀ s, kv.1 = Sum.inl s ↔ findUID kv.2 = some s)
  ∧ (∀ kv ∈ acc, ∀ j, kv.1 = Sum.inr j → j < n)
  ∧ acc.Pairwise (fun x y => x.1 ≠ y.1)

theorem Inv_nil : DedupInv [] 0 := ⟨by simp, by simp, List.Pairwise.nil⟩

theorem hasKey_false_iff (acc : List (MergeKey × List Char)) (k : MergeKey) :
    hasKey acc k = false ↔ ∀ kv ∈ acc, kv.1 ≠ k := by
  simp [hasKey, List.any_eq_false]

theorem Inv_append_inl {acc n e u} (h : DedupInv acc n) (hu : findUID e = some u)
    (hk : hasKey acc (Sum.inl u) = false) :
    DedupInv (acc ++ [(Sum.inl u, e)]) n := by
  obtain ⟨h1, h2, h3⟩ := h
  refine ⟨?_, ?_, ?_⟩
  · intro kv hkv s
    rcases List.mem_append.mp hkv with hm | hm
    · exact h1 kv hm s
    · rw [List.mem_singleton.mp hm]
      constructor
      · intro hs
        have : u = s := Sum.inl.inj hs
        rw [← this]
        exact hu
      · intro hs
        have : u = s := Option.some.inj (hu ▸ hs)
        rw [this]
  · intro kv hkv j hj
    rcases List.mem_append.mp hkv with hm | hm
    · exact h2 kv hm j hj
    · rw [List.mem_singleton.mp hm] at hj
      exact absurd hj (by simp)
  · rw [List.pairwise_append]
    refine ⟨h3, List.pairwise_singleton _ _, ?_⟩
    intro x hx y hy
    rw [List.mem_singleton.mp hy]
    exact (hasKey_false_iff acc _).mp hk x hx

theorem Inv_append_inr {acc n e} (h : DedupInv acc n) (hu : findUID e = none) :
    DedupInv (acc ++ [(Sum.inr n, e)]) (n + 1) := by
  obtain ⟨h1, h2, h3⟩ := h
  refine ⟨?_, ?_, ?_⟩
  · intro kv hkv s
    rcases List.mem_append.mp hkv with hm | hm
    · exact h1 kv hm s
    · rw [List.mem_singleton.mp hm]
      simp [hu]
  · intro kv hkv j hj
    rcases List.mem_append.mp hkv with hm | hm
    · exact Nat.lt_succ_of_lt (h2 kv hm j hj)
    · rw [List.mem_singleton.mp hm] at hj
      have : n = j := Sum.inr.inj hj
      omega
  · rw [List.pairwise_append]
    refine ⟨h3, List.pairwise_singleton _ _, ?_⟩
    intro x hx y hy
    rw [List.mem_singleton.mp hy]
    intro hxy
    exact absurd (h2 x hx n hxy) (Nat.lt_irrefl n)

theorem filter_values_empty {acc : List (MergeKey × List Char)} {n : Nat}
    {u : List Char} (h : DedupInv acc n)
    (hk : hasKey acc (Sum.inl u) = false) :
    (acc.map Prod.snd).filter (fun e => decide (findUID e = some u)) = [] := by
  rw [List.filter_eq_nil_iff]
  intro v hv
  obtain ⟨kv, hkv, hvv⟩ := List.mem_map.mp hv
  simp only [decide_eq_true_eq]
  intro hfu
  have : kv.1 = Sum.inl u := (h.1 kv hkv u).mpr (hvv ▸ hfu)
  exact (hasKey_false_iff acc _).mp hk kv hkv this

theorem filter_values_ne_nil {acc : List (MergeKey × List Char)} {n : Nat}
    {u : List Char} (h : DedupInv acc n)
    (hk : hasKey acc (Sum.inl u) = true) :
    (acc.map Prod.snd).filter (fun e => decide (findUID e = some u)) ≠ [] := by
  obtain ⟨kv, hkv, hkey⟩ := List.any_eq_true.mp hk
  have hkeq : kv.1 = Sum.inl u := of_decide_eq_true hkey
  have hfu : findUID kv.2 = some u := (h.1 kv hkv u).mp hkeq
  have hmem : kv.2 ∈ (acc.map Prod.snd).filter
      (fun e => decide (findUID e = some u)) :=
    List.mem_filter.mpr ⟨List.mem_map.mpr ⟨kv, hkv, rfl⟩, by simp [hfu]⟩
  exact List.ne_nil_of_mem hmem

theorem filter_values_len_le_one {u : List Char} :
    ∀ {acc : List (MergeKey × List Char)} {n : Nat}, DedupInv acc n →
    ((acc.map Prod.snd).filter (fun e => decide (findUID e = some u))).length ≤ 1 := by
  intro acc
  induction acc with
  | nil => intro n _; simp
  | cons kv acc ih =>
    intro n h
    obtain ⟨h1, h2, h3⟩ := h
    have htail : DedupInv acc n :=
      ⟨fun x hx => h1 x (List.mem_cons_of_mem kv hx),
       fun x hx => h2 x (List.mem_cons_of_mem kv hx),
       List.Pairwise.of_cons h3⟩
    rw [List.map_cons]
    by_cases hpu : findUID kv.2 = some u
    · have hkey : kv.1 = Sum.inl u := (h1 kv (List.mem_cons_self kv acc) u).mpr hpu
      have hrest : (acc.map Prod.snd).filter
          (fun e => decide (findUID e = some u)) = [] := by
        apply filter_values_empty htail
        rw [hasKey_false_iff]
        intro x hx hxk
        have : kv.1 ≠ x.1 := List.rel_of_pairwise_cons h3 hx
        exact this (hkey.trans hxk.symm)
      rw [List.filter_cons_of_pos (by simp [hpu]), hrest]
      simp
    · rw [List.filter_cons_of_neg (by simp [hpu])]
      exact ih htail

theorem dedupAux_filter_uid (u : List Char) :
    ∀ (es : List (List Char)) (n : Nat) (acc), DedupInv acc n →
    ((dedupAux es n acc).map Prod.snd).filter
        (fun e => decide (findUID e = some u))
      = ((acc.map Prod.snd).filter (fun e => decide (findUID e = some u)) ++
          es.filter (fun e => decide (findUID e = some u))).take 1 := by
  intro es
  induction es with
  | nil =>
    intro n acc h
    rw [dedupAux, List.filter_nil, List.append_nil]
    exact (List.take_of_length_le (filter_values_len_le_one h)).symm
  | cons e es ih =>
    intro n acc h
    match hfu : findUID e with
    | some u1 =>
      rw [dedupAux]
      rw [hfu]
      by_cases hk : hasKey acc (Sum.inl u1) = true
      · simp only [hk, if_true]
        rw [ih n acc h]
        by_cases hue : u1 = u
        · subst hue
          obtain ⟨v, vs, hv⟩ :=
            List.exists_cons_of_ne_nil (filter_values_ne_nil h hk)
          rw [List.filter_cons_of_pos (by simp [hfu]), hv]
          simp
        · rw [List.filter_cons_of_neg (by simp [hfu, hue])]
      · have hkf : hasKey acc (Sum.inl u1) = false := by
          cases hx : hasKey acc (Sum.inl u1)
          · rfl
          · exact absurd hx hk
        simp only [hkf, Bool.false_eq_true, if_false]
        rw [ih n _ (Inv_append_inl h hfu hkf)]
        by_cases hue : u1 = u
        · subst hue
          have hempty := filter_values_empty h hkf
          rw [List.filter_cons_of_pos (by simp [hfu])]
          simp [List.map_append, List.filter_append, hempty, hfu]
        · rw [List.filter_cons_of_neg (by simp [hfu, hue])]
          simp [List.map_append, List.filter_append, hfu, hue]
    | none =>
      rw [dedupAux]
      rw [hfu]
      rw [ih (n + 1) _ (Inv_append_inr h hfu)]
      rw [List.filter_cons_of_neg (by simp [hfu])]
      simp [hfu]

theorem dedupAux_filter_none :
    ∀ (es : List (List Char)) (n : Nat) (acc),
    ((dedupAux es n acc).map Prod.snd).filter
        (fun e => decide (findUID e = none))
      = (acc.map Prod.snd).filter (fun e => decide (findUID e = none)) ++
          es.filter (fun e => decide (findUID e = none)) := by
  intro es
  induction es with
  | nil =>
    intro n acc
    rw [dedupAux, List.filter_nil, List.append_nil]
  | cons e es ih =>
    intro n acc
    match hfu : findUID e with
    | some u1 =>
      rw [dedupAux]
      rw [hfu]
      by_cases hk : hasKey acc (Sum.inl u1) = true
      · simp only [hk, if_true]
        rw [ih n acc, List.filter_cons_of_neg (by simp [hfu])]
      · have hkf : hasKey acc (Sum.inl u1) = false := by
          cases hx : hasKey acc (Sum.inl u1)
          · rfl
          · exact absurd hx hk
        simp only [hkf, Bool.false_eq_true, if_false]
        rw [ih n _, List.filter_cons_of_neg (by simp [hfu])]
        simp [hfu]
    | none =>
      rw [dedupAux]
      rw [hfu]
      rw [ih (n + 1) _, List.filter_cons_of_pos (by simp [hfu])]
      simp [hfu]

/-! ## Order, sorting and first-success lemmas for the export locator -/

theorem lexLe_total (a b : List Char) : lexLe a b = true ∨ lexLe b a = true := by
  induction a generalizing b with
  | nil => left; rfl
  | cons x xs ih =>
    match b with
    | [] => right; rfl
    | y :: ys =>
      by_cases hxy : x = y
      · subst hxy
        rcases ih ys with h | h
        · left; simpa [lexLe] using h
        · right; simpa [lexLe] using h
      · rcases lt_or_gt_of_ne hxy with h | h
        · left; simp [lexLe, hxy, h]
        · right
          simp [lexLe, Ne.symm hxy]
          exact h

theorem lexLe_trans {a b c : List Char} (h1 : lexLe a b = true)
    (h2 : lexLe b c = true) : lexLe a c = true := by
  induction a generalizing b c with
  | nil => rfl
  | cons x xs ih =>
    match b with
    | [] => exact absurd h1 (by simp [lexLe])
    | y :: ys =>
      match c with
      | [] => exact absurd h2 (by simp [lexLe])
      | z :: zs =>
        by_cases hxy : x = y
        · subst hxy
          by_cases hyz : x = z
          · subst hyz
            simp only [lexLe, if_pos rfl] at h1 h2 ⊢
            exact ih h1 h2
          · simp only [lexLe, if_pos rfl] at h1
            simp only [lexLe, if_neg hyz, decide_eq_true_eq] at h2 ⊢
            exact h2
        · simp only [lexLe, if_neg hxy, decide_eq_true_eq] at h1
          by_cases hyz : y = z
          · subst hyz
            simp only [lexLe, if_neg hxy, decide_eq_true_eq]
            exact h1
          · simp only [lexLe, if_neg hyz, decide_eq_true_eq] at h2
            have hxz : x < z := lt_trans h1 h2
            simp only [lexLe, if_neg (ne_of_lt hxz), decide_eq_true_eq]
            exact hxz

theorem insertDesc_perm (x : String) (l : List String) :
    (insertDesc x l).Perm (x :: l) := by
  induction l with
  | nil => exact List.Perm.refl _
  | cons y ys ih =>
    rw [insertDesc]
    by_cases h : lexLe y.toList x.toList = true
    · rw [if_pos h]
    · rw [if_neg h]
      exact (List.Perm.cons y ih).trans (List.Perm.swap x y ys)

theorem sortDesc_perm (l : List String) : (sortDesc l).Perm l := by
  induction l with
  | nil => exact List.Perm.refl _
  | cons x xs ih =>
    exact (insertDesc_perm x (sortDesc xs)).trans (List.Perm.cons x ih)

theorem mem_sortDesc {x : String} {l : List String} :
    x ∈ sortDesc l ↔ x ∈ l :=
  (sortDesc_perm l).mem_iff

theorem insertDesc_sorted (x : String) (l : List String)
    (h : l.Pairwise (fun a b => lexLe b.toList a.toList = true)) :
    (insertDesc x l).Pairwise (fun a b => lexLe b.toList a.toList = true) := by
  induction l with
  | nil => exact List.pairwise_singleton _ _
  | cons y ys ih =>
    rw [insertDesc]
    by_cases hxy : lexLe y.toList x.toList = true
    · rw [if_pos hxy]
      apply List.Pairwise.cons _ h
      intro b hb
      rcases List.mem_cons.mp hb with hby | hby
      · rw [hby]
        exact hxy
      · exact lexLe_trans (List.rel_of_pairwise_cons h hby) hxy
    · rw [if_neg hxy]
      have hyx : lexLe x.toList y.toList = true := by
        rcases lexLe_total x.toList y.toList with h2 | h2
        · exact h2
        · exact absurd h2 hxy
      apply List.Pairwise.cons _ (ih (List.Pairwise.of_cons h))
      intro b hb
      have : b ∈ x :: ys := (insertDesc_perm x ys).mem_iff.mp hb
      rcases List.mem_cons.mp this with hbx | hby
      · rw [hbx]
        exact hyx
      · exact List.rel_of_pairwise_cons h hby

theorem sortDesc_sorted (l : List String) :
    (sortDesc l).Pairwise (fun a b => lexLe b.toList a.toList = true) := by
  induction l with
  | nil => exact List.Pairwise.nil
  | cons x xs ih => exact insertDesc_sorted x (sortDesc xs) ih

theorem firstSome_eq_none_iff (f : String → Option (List Char))
    (l : List String) : firstSome f l = none ↔ ∀ d ∈ l, f d = none := by
  induction l with
  | nil => simp [firstSome]
  | cons d ds ih =>
    rw [firstSome]
    match hd : f d with
    | some c => simp [hd]
    | none => simpa [hd] using ih

theorem firstSome_eq_some (f : String → Option (List Char))
    (l : List String) (c : List Char)
    (hsort : l.Pairwise (fun a b => lexLe b.toList a.toList = true))
    (h : firstSome f l = some c) :
    ∃ d ∈ l, f d = some c ∧
      ∀ d2 ∈ l, (f d2).isSome = true → lexLe d2.toList d.toList = true := by
  induction l with
  | nil => exact absurd h (by simp [firstSome])
  | cons d ds ih =>
    rw [firstSome] at h
    match hd : f d with
    | some c0 =>
      rw [hd] at h
      refine ⟨d, List.mem_cons_self d ds, h ▸ hd, ?_⟩
      intro d2 hd2 _
      rcases List.mem_cons.mp hd2 with h2 | h2
      · subst h2
        rcases lexLe_total d2.toList d2.toList with ht | ht
        · exact ht
        · exact ht
      · exact List.rel_of_pairwise_cons hsort h2
    | none =>
      rw [hd] at h
      obtain ⟨d1, hd1, hfd1, hmax⟩ := ih (List.Pairwise.of_cons hsort) h
      refine ⟨d1, List.mem_cons_of_mem d hd1, hfd1, ?_⟩
      intro d2 hd2 hs
      rcases List.mem_cons.mp hd2 with h2 | h2
      · subst h2
        rw [hd] at hs
        exact absurd hs (by simp)
      · exact hmax d2 h2 hs

/-! ## Trim, header and footer lemmas -/

theorem jsTrim_infix_self (l : List Char) : jsTrim l <:+: l := by
  have h1 : l.dropWhile isWs <:+ l := List.dropWhile_suffix isWs
  have h2 : (l.dropWhile isWs).reverse.dropWhile isWs <:+
      (l.dropWhile isWs).reverse := List.dropWhile_suffix isWs
  have h3 : jsTrim l <+: l.dropWhile isWs := by
    rw [jsTrim]
    apply List.reverse_suffix.mp
    simpa using h2
  exact h3.isInfix.trans h1.isInfix

theorem jsTrim_ne_of_no_occ {l m : List Char} (h : ¬ m <:+: l) :
    jsTrim l ≠ m :=
  fun he => h (he ▸ jsTrim_infix_self l)

theorem takeWhile_notNl_append (name z : List Char) (h : nlChar ∉ name) :
    (name ++ nlChar :: z).takeWhile (fun d => decide (d ≠ nlChar)) = name := by
  induction name with
  | nil => simp [List.takeWhile]
  | cons c cs ih =>
    have hc : c ≠ nlChar := fun hx => h (hx ▸ List.mem_cons_self c cs)
    rw [List.cons_append, List.takeWhile_cons_of_pos (by simp [hc]),
      ih (fun hx => h (List.mem_cons_of_mem c hx))]

theorem dropWhile_notNl_mem (rest : List Char) (h : nlChar ∈ rest) :
    ∃ z, rest.dropWhile (fun d => decide (d ≠ nlChar)) = nlChar :: z := by
  induction rest with
  | nil => exact absurd h (List.not_mem_nil nlChar)
  | cons c cs ih =>
    by_cases hc : c = nlChar
    · subst hc
      exact ⟨cs, by simp [List.dropWhile_cons]⟩
    · have : nlChar ∈ cs := by
        rcases List.mem_cons.mp h with h1 | h1
        · exact absurd h1.symm hc
        · exact h1
      obtain ⟨z, hz⟩ := ih this
      exact ⟨z, by rw [List.dropWhile_cons_of_pos (by simp [hc]), hz]⟩

theorem collectHF_single (d : List Char) :
    collectHF [d] ([], []) = (headerOf d, footerOf d) := by
  rw [collectHF, if_pos rfl, collectHF]
  by_cases h1 : headerOf d = []
  · by_cases h2 : footerOf d = []
    · simp [h1, h2]
    · simp [h1, h2]
  · by_cases h2 : footerOf d = []
    · simp [h1, h2]
    · simp [h1, h2]

theorem flatten_evLines_cons (bd : List (List Char))
    (bodies : List (List (List Char))) :
    ((bd :: bodies).map evLines).flatten
      = (beginMarker :: (bd ++ [endMarker])) ++ (bodies.map evLines).flatten := by
  simp [evLines]

theorem headerOf_normal (hl : List (List Char))
    (bodies : List (List (List Char))) (hne : bodies ≠ [])
    (hclean : ∀ l ∈ hl, nlChar ∉ l ∧ ¬ beginMarker <:+: l) :
    headerOf (normalDoc hl bodies) = linesJoin hl := by
  match bodies with
  | bd :: bodies2 =>
    have hdoc : normalDoc hl (bd :: bodies2)
        = linesJoin hl ++ (beginMarker ++ nlChar ::
            linesJoin ((bd ++ [endMarker]) ++ (bodies2.map evLines).flatten)) := by
      rw [normalDoc, flatten_evLines_cons, linesJoin_append, linesJoin_append,
        linesJoin_cons]
      simp [linesJoin_append, linesJoin_cons, linesJoin_nil, List.append_assoc]
    rw [headerOf, hdoc,
      splitFirst_linesJoin hl _ (by decide) (by decide)
        (fun l hlm => (hclean l hlm).2)]
    have hself : splitFirst beginMarker (beginMarker ++ nlChar ::
        linesJoin ((bd ++ [endMarker]) ++ (bodies2.map evLines).flatten))
        = some ([], nlChar ::
            linesJoin ((bd ++ [endMarker]) ++ (bodies2.map evLines).flatten)) := by
      have := splitFirst_of_noEarly
        (p := beginMarker) (a := []) (b := nlChar ::
          linesJoin ((bd ++ [endMarker]) ++ (bodies2.map evLines).flatten))
        (fun i hi => by simp at hi)
      simpa using this
    rw [hself]
    simp

theorem footerOf_normal (hl : List (List Char))
    (bodies : List (List (List Char))) (hne : bodies ≠ [])
    (hclean : ∀ l ∈ hl, nlChar ∉ l ∧ ¬ endMarker <:+: l)
    (hb : ∀ bd ∈ bodies, ∀ l ∈ bd, nlChar ∉ l ∧ ¬ endMarker <:+: l) :
    footerOf (normalDoc hl bodies) = [] := by
  match bodies with
  | bd :: bodies2 =>
    have hdoc : normalDoc hl (bd :: bodies2)
        = linesJoin ((hl ++ [beginMarker]) ++ bd) ++ (endMarker ++ nlChar ::
            linesJoin ((bodies2.map evLines).flatten)) := by
      rw [normalDoc, flatten_evLines_cons]
      have hregroup : hl ++ (beginMarker :: (bd ++ [endMarker]) ++
          (bodies2.map evLines).flatten)
          = ((hl ++ [beginMarker]) ++ bd) ++
            ([endMarker] ++ (bodies2.map evLines).flatten) := by
        simp
      rw [hregroup, linesJoin_append, linesJoin_append, List.singleton_append,
        linesJoin_cons]
    have hlines : ∀ l ∈ (hl ++ [beginMarker]) ++ bd, ¬ endMarker <:+: l := by
      intro l hlm
      rcases List.mem_append.mp hlm with h1 | h1
      · rcases List.mem_append.mp h1 with h2 | h2
        · exact (hclean l h2).2
        · rw [List.mem_singleton.mp h2]
          decide
      · exact (hb bd (List.mem_cons_self bd bodies2) l h1).2
    rw [footerOf, hdoc, splitFirst_linesJoin _ _ (by decide) (by decide) hlines]
    have hself : splitFirst endMarker (endMarker ++ nlChar ::
        linesJoin ((bodies2.map evLines).flatten))
        = some ([], nlChar :: linesJoin ((bodies2.map evLines).flatten)) := by
      have := splitFirst_of_noEarly
        (p := endMarker) (a := []) (b := nlChar ::
          linesJoin ((bodies2.map evLines).flatten))
        (fun i hi => by simp at hi)
      simpa using this
    rw [hself]
    simp [List.takeWhile]

theorem flatten_ne_nil {Ls : List (List (List Char))} (hne : Ls ≠ [])
    (h : ∀ L ∈ Ls, L ≠ []) : Ls.flatten ≠ [] := by
  match Ls with
  | L :: Ls2 =>
    have hL := h L (List.mem_cons_self L Ls2)
    simp only [List.flatten_cons]
    intro hx
    exact hL (List.append_eq_nil.mp hx).1

theorem joinNl_flatten (Ls : List (List (List Char)))
    (h : ∀ L ∈ Ls, L ≠ []) :
    joinNl Ls.flatten = joinNl (Ls.map joinNl) := by
  induction Ls with
  | nil => rfl
  | cons L Ls ih =>
    match Ls with
    | [] => simp [joinNl]
    | M :: Ls2 =>
      have hflat : (M :: Ls2).flatten ≠ [] :=
        flatten_ne_nil (by simp)
          (fun x hx => h x (List.mem_cons_of_mem L hx))
      rw [List.flatten_cons,
        joinNl_append L _ (h L (List.mem_cons_self L (M :: Ls2))) hflat,
        ih (fun x hx => h x (List.mem_cons_of_mem L hx))]
      simp [joinNl_cons_cons]

/-! ## Claim theorems -/

/-- C1: for every ordered list of source documents and every UID value, the
deduplicated event list that `mergeICS` emits contains exactly the first
event block with that UID from the concatenation of the parsed sources (in
source order), and when some source event carries the UID, exactly one
surviving event does. -/
theorem claim_C1 (sources : List (List Char)) (uid : List Char) :
    (mergedEvents sources).filter (fun e => decide (findUID e = some uid))
      = ((sources.flatMap parseICS).filter
          (fun e => decide (findUID e = some uid))).take 1
  ∧ ((∃ e ∈ sources.flatMap parseICS, findUID e = some uid) →
      ((mergedEvents sources).filter
          (fun e => decide (findUID e = some uid))).length = 1) := by
  have hmain := dedupAux_filter_uid uid (sources.flatMap parseICS) 0 [] Inv_nil
  have heq : (mergedEvents sources).filter (fun e => decide (findUID e = some uid))
      = ((sources.flatMap parseICS).filter
          (fun e => decide (findUID e = some uid))).take 1 := by
    simpa [mergedEvents] using hmain
  refine ⟨heq, ?_⟩
  rintro ⟨e, he, hfe⟩
  rw [heq]
  have hne : (sources.flatMap parseICS).filter
      (fun e => decide (findUID e = some uid)) ≠ [] :=
    List.ne_nil_of_mem (List.mem_filter.mpr ⟨he, by simp [hfe]⟩)
  match hx : (sources.flatMap parseICS).filter
      (fun e => decide (findUID e = some uid)) with
  | [] => exact absurd hx hne
  | v :: vs => simp

/-- C6: identifier-less events are never deduplicated: merging two source
documents keeps every event without a UID field, so the surviving
identifier-less events are exactly those of the two sources in order, and
their count is N1 + N2. -/
theorem claim_C6 (d1 d2 : List Char) :
    (mergedEvents [d1, d2]).filter (fun e => decide (findUID e = none))
      = (parseICS d1 ++ parseICS d2).filter (fun e => decide (findUID e = none))
  ∧ ((mergedEvents [d1, d2]).filter
        (fun e => decide (findUID e = none))).length
      = ((parseICS d1).filter (fun e => decide (findUID e = none))).length
        + ((parseICS d2).filter (fun e => decide (findUID e = none))).length := by
  have hmain := dedupAux_filter_none ([d1, d2].flatMap parseICS) 0 []
  have heq : (mergedEvents [d1, d2]).filter (fun e => decide (findUID e = none))
      = (parseICS d1 ++ parseICS d2).filter
          (fun e => decide (findUID e = none)) := by
    simpa [mergedEvents] using hmain
  exact ⟨heq, by rw [heq]; simp⟩

/-- C9: an event that begins but never closes is silently dropped:
appending a `BEGIN:VEVENT` line and any marker-free tail to a document adds
nothing to the parsed event list, and the parser reports no error (it is a
total function into an event list). -/
theorem claim_C9 (pre post : List (List Char)) (b : List Char)
    (hnl : ∀ l ∈ pre ++ b :: post, nlChar ∉ l)
    (hb : jsTrim b = beginMarker)
    (hpost : ∀ l ∈ post, jsTrim l ≠ endMarker) :
    parseICS (joinNl (pre ++ b :: post)) = parseICS (joinNl pre) := by
  rw [parseICS, splitOnNl_joinNl _ (by simp) hnl,
    parseICSAux_append pre (b :: post) [] false]
  have hnoend : ∀ l ∈ b :: post, jsTrim l ≠ endMarker := by
    intro l hl
    rcases List.mem_cons.mp hl with h1 | h1
    · rw [h1, hb]
      decide
    · exact hpost l h1
  rw [parseICSAux_no_end (b :: post) _ _ hnoend, List.append_nil]
  match pre with
  | [] => rfl
  | p :: ps =>
    rw [parseICS, splitOnNl_joinNl (p :: ps) (by simp)
      (fun l hl => hnl l (List.mem_append_left _ hl))]

/-- C10: the end-marker branch of `parseICS` does not test the `inEvent`
flag: an `END:VEVENT` line reached while no event is open still emits an
event block ending at that line, so a document whose only marker line is
`END:VEVENT` yields one spurious one-line event. -/
theorem claim_C10 (pre post : List (List Char)) (e : List Char)
    (hnl : ∀ l ∈ pre ++ e :: post, nlChar ∉ l)
    (hpre : ∀ l ∈ pre, jsTrim l ≠ beginMarker ∧ jsTrim l ≠ endMarker)
    (he : jsTrim e = endMarker) :
    parseICS (joinNl (pre ++ e :: post)) = e :: parseICSAux post [] false := by
  rw [parseICS, splitOnNl_joinNl _ (by simp) hnl,
    parseICSAux_append pre (e :: post) [] false, parseState_skip pre [] hpre,
    parseICSAux_no_end pre [] false (fun l hl => (hpre l hl).2)]
  have hnb : jsTrim e ≠ beginMarker := by
    rw [he]
    decide
  rw [List.nil_append, parseICSAux, if_neg hnb, if_pos he]
  simp [joinNl]

/-- A concrete source document with events u1 and u2. -/
def docA : List Char :=
  "BEGIN:VCALENDAR\nX-WR-CALNAME:A\nBEGIN:VEVENT\nUID:u1\nEND:VEVENT\nBEGIN:VEVENT\nUID:u2\nSUMMARY:a2\nEND:VEVENT\nEND:VCALENDAR\n".toList

/-- A concrete source document with events u2 (different content) and u3. -/
def docB : List Char :=
  "BEGIN:VCALENDAR\nX-WR-CALNAME:B\nBEGIN:VEVENT\nUID:u2\nSUMMARY:b2\nEND:VEVENT\nBEGIN:VEVENT\nUID:u3\nEND:VEVENT\nEND:VCALENDAR\n".toList

/-- Witness for C1 at the two concrete overlapping sources: exactly one
event with UID u2 survives the merge. -/
theorem claim_C1_witness :
    ((mergedEvents [docA, docB]).filter
        (fun e => decide (findUID e = some "u2".toList))).length = 1 :=
  (claim_C1 [docA, docB] "u2".toList).2 (by decide)

/-- Witness for C9 at a concrete document whose last event never closes. -/
theorem claim_C9_witness :
    parseICS (joinNl ["BEGIN:VCALENDAR".toList, beginMarker, "UID:9".toList])
      = parseICS (joinNl ["BEGIN:VCALENDAR".toList]) :=
  claim_C9 ["BEGIN:VCALENDAR".toList] ["UID:9".toList] beginMarker
    (by decide) (by decide) (by decide)

/-- Witness for C10: a document whose only marker line is `END:VEVENT`
parses to one spurious one-line event. -/
theorem claim_C10_witness :
    parseICS (joinNl ["X:1".toList, endMarker]) = [endMarker] :=
  claim_C10 ["X:1".toList] [] endMarker (by decide) (by decide) (by decide)

/-- A concrete balanced calendar document with a footer line. -/
def docC2 : List Char :=
  "BEGIN:VCALENDAR\nX-WR-CALNAME:T\nBEGIN:VEVENT\nUID:1\nEND:VEVENT\nEND:VCALENDAR\n".toList

/-- C2 (counterexample): the concrete document has balanced event markers,
yet parsing and reassembling it the way the merge engine does is not the
identity — the `END:VCALENDAR` footer line is dropped, because the footer
regex captures only the first end-marker's line tail. -/
theorem claim_C2_counterexample :
    reassemble docC2 ≠ docC2
  ∧ ((splitOnNl docC2).filter
        (fun l => decide (jsTrim l = beginMarker))).length
      = ((splitOnNl docC2).filter
          (fun l => decide (jsTrim l = endMarker))).length := by
  constructor
  · decide
  · decide

/-- C2 (amended): the parse/reassemble round trip is the identity exactly on
well-formed documents: a (possibly empty) block of newline-terminated header
lines that contain no event marker as a substring, followed by at least one
event block made of exact `BEGIN:VEVENT` / `END:VEVENT` marker lines around
body lines that neither trim to a begin marker nor contain the end marker as
a substring, with single newlines between lines, no stray text between or
after events, and a final newline.  Text after the last end marker (such as
`END:VCALENDAR`) or between events is dropped by the reassembly, so the
general balanced-marker round trip of the claim fails. -/
theorem claim_C2_amended (hl : List (List Char))
    (bodies : List (List (List Char))) (hne : bodies ≠ [])
    (hh : ∀ l ∈ hl, nlChar ∉ l ∧ ¬ beginMarker <:+: l ∧ ¬ endMarker <:+: l)
    (hb : ∀ bd ∈ bodies, ∀ l ∈ bd,
        nlChar ∉ l ∧ jsTrim l ≠ beginMarker ∧ ¬ endMarker <:+: l) :
    reassemble (normalDoc hl bodies) = normalDoc hl bodies := by
  rw [reassemble, collectHF_single,
    headerOf_normal hl bodies hne (fun l hlm => ⟨(hh l hlm).1, (hh l hlm).2.1⟩),
    footerOf_normal hl bodies hne
      (fun l hlm => ⟨(hh l hlm).1, (hh l hlm).2.2⟩)
      (fun bd hbd l hlm => ⟨(hb bd hbd l hlm).1, (hb bd hbd l hlm).2.2⟩),
    parseICS_normal hl bodies (fun l hlm => (hh l hlm).1)
      (fun l hlm => ⟨jsTrim_ne_of_no_occ (hh l hlm).2.1,
        jsTrim_ne_of_no_occ (hh l hlm).2.2⟩)
      (fun bd hbd l hlm => (hb bd hbd l hlm).1)
      (fun bd hbd l hlm => ⟨(hb bd hbd l hlm).2.1,
        jsTrim_ne_of_no_occ (hb bd hbd l hlm).2.2⟩)]
  rw [normalDoc, linesJoin_append, List.append_assoc]
  congr 1
  have hmapne : bodies.map evLines ≠ [] := by
    match bodies with
    | bd :: bodies2 => simp
  have hevne : ∀ L ∈ bodies.map evLines, L ≠ [] := by
    intro L hL
    obtain ⟨bd, _, hbd⟩ := List.mem_map.mp hL
    rw [← hbd, evLines]
    simp
  have hflatne : (bodies.map evLines).flatten ≠ [] := flatten_ne_nil hmapne hevne
  rw [linesJoin_eq_joinNl _ hflatne, joinNl_flatten _ hevne, List.map_map]
  simp [Function.comp_def]

/-- Witness for C2 (amended) at a concrete well-formed document. -/
theorem claim_C2_amended_witness :
    reassemble (normalDoc ["BEGIN:VCALENDAR".toList, "X-WR-CALNAME:T".toList]
        [["UID:1".toList]])
      = normalDoc ["BEGIN:VCALENDAR".toList, "X-WR-CALNAME:T".toList]
          [["UID:1".toList]] :=
  claim_C2_amended ["BEGIN:VCALENDAR".toList, "X-WR-CALNAME:T".toList]
    [["UID:1".toList]] (by decide) (by decide) (by decide)

/-- C5: when the header retained by the merge (the first-used source
header) contains an `X-WR-CALNAME:` field followed by a line break, the
merged document's calendar-title field value is exactly the virtual
calendar's name (whatever the sources' own titles were), and the rewrite
changes nothing outside the rest of that field's line: the text before the
marker and the text from the line break on pass through unchanged. -/
theorem claim_C5 (icsFiles : List (List Char)) (mergedName pre rest : List Char)
    (hocc : splitFirst calNameMarker (collectHF icsFiles ([], [])).1
      = some (pre, rest))
    (hname : nlChar ∉ mergedName) (hrest : nlChar ∈ rest) :
    calNameValue (mergeICS icsFiles mergedName) = some mergedName
  ∧ replaceCalName (collectHF icsFiles ([], [])).1 mergedName
      = pre ++ calNameMarker ++ mergedName ++
          rest.dropWhile (fun d => decide (d ≠ nlChar))
  ∧ (collectHF icsFiles ([], [])).1 = pre ++ calNameMarker ++ rest := by
  have hdecomp := (splitFirst_eq_some hocc).1
  have hrepl : replaceCalName (collectHF icsFiles ([], [])).1 mergedName
      = pre ++ calNameMarker ++ mergedName ++
          rest.dropWhile (fun d => decide (d ≠ nlChar)) := by
    rw [replaceCalName, hocc]
  refine ⟨?_, hrepl, hdecomp⟩
  obtain ⟨z, hz⟩ := dropWhile_notNl_mem rest hrest
  have hdoc : mergeICS icsFiles mergedName
      = pre ++ calNameMarker ++ (mergedName ++ nlChar ::
          (z ++ (joinNl (mergedEvents icsFiles) ++ nlChar ::
            (collectHF icsFiles ([], [])).2))) := by
    rw [mergeICS, hrepl, hz]
    simp
  have hsf : splitFirst calNameMarker (mergeICS icsFiles mergedName)
      = some (pre, mergedName ++ nlChar ::
          (z ++ (joinNl (mergedEvents icsFiles) ++ nlChar ::
            (collectHF icsFiles ([], [])).2))) := by
    rw [hdoc]
    exact splitFirst_replace hocc
  rw [calNameValue, hsf, Option.map_some']
  rw [takeWhile_notNl_append _ _ hname]

/-- Witness for C5 at a concrete merge of one source. -/
theorem claim_C5_witness :
    calNameValue (mergeICS [docA] "GroupeIMP".toList)
      = some "GroupeIMP".toList :=
  (claim_C5 [docA] "GroupeIMP".toList "BEGIN:VCALENDAR\n".toList
    "A\n".toList (by decide) (by decide) (by decide)).1

/-- A dated-directory candidate for strategy 2: an entry of the export root
whose name contains a hyphen and whose probe under the requested calendar
name succeeds. -/
def datedCandidate (exportT : FSTree) (nm : String) (ns : List String)
    (d : String) : Prop :=
  d ∈ ns ∧ d.toList.any (fun c => decide (c = '-')) = true ∧
    (tryDated exportT d nm).isSome = true

/-- C3 (amended): the locator serves the direct folder whenever listing it
yields a first `.ics`-suffixed entry that is a readable file; when the
direct strategy fails it serves the greatest (in the code-point order
modelling the locale comparison) hyphen-named export-root entry whose dated
probe succeeds, and returns `none` when no candidate exists or the export
root is unreadable.  The original claim's "directory with at least one
`.ics` file" premise is too weak: the first `.ics`-suffixed entry may be a
directory, which makes the strategy fall through. -/
theorem claim_C3_amended (exportT : FSTree) (nm : String) :
    (∀ t fns f c, childOf exportT nm = some t → readdirNames t = some fns →
        findIcsName fns = some f → (childOf t f).bind readFileOpt = some c →
        getLatestICS exportT nm = some c)
  ∧ (strat1 exportT nm = none →
      (∀ ns, readdirNames exportT = some ns →
        (∀ c, getLatestICS exportT nm = some c →
          ∃ d, datedCandidate exportT nm ns d ∧ tryDated exportT d nm = some c ∧
            ∀ d2, datedCandidate exportT nm ns d2 →
              lexLe d2.toList d.toList = true)
        ∧ ((∀ d, ¬ datedCandidate exportT nm ns d) →
            getLatestICS exportT nm = none))
      ∧ (readdirNames exportT = none → getLatestICS exportT nm = none)) := by
  constructor
  · intro t fns f c h1 h2 h3 h4
    have hs1 : strat1 exportT nm = some c := by
      rw [strat1, h1, Option.some_bind, readIcsIn, h2]
      simp only [Option.some_bind]
      rw [h3]
      simpa using h4
    rw [getLatestICS, hs1]
  · intro hs1
    constructor
    · intro ns hns
      constructor
      · intro c hc
        have h2 : strat2 exportT nm = some c := by
          rw [getLatestICS, hs1] at hc
          exact hc
        rw [strat2, hns] at h2
        simp only [Option.some_bind] at h2
        obtain ⟨d, hdmem, hfd, hmax⟩ :=
          firstSome_eq_some _ _ c (sortDesc_sorted _) h2
        have hdfil := mem_sortDesc.mp hdmem
        obtain ⟨hdns, hdh⟩ := List.mem_filter.mp hdfil
        refine ⟨d, ⟨hdns, hdh, by rw [hfd]; rfl⟩, hfd, ?_⟩
        intro d2 hd2
        obtain ⟨h2ns, h2h, h2s⟩ := hd2
        exact hmax d2 (mem_sortDesc.mpr (List.mem_filter.mpr ⟨h2ns, h2h⟩)) h2s
      · intro hnone
        rw [getLatestICS, hs1, strat2, hns]
        simp only [Option.some_bind]
        apply (firstSome_eq_none_iff _ _).mpr
        intro d hd
        match htd : tryDated exportT d nm with
        | none => rfl
        | some c =>
          have hdfil := mem_sortDesc.mp hd
          obtain ⟨hdns, hdh⟩ := List.mem_filter.mp hdfil
          exact absurd ⟨hdns, hdh, by rw [htd]; rfl⟩ (hnone d)
    · intro hnone
      rw [getLatestICS, hs1, strat2, hnone]
      rfl

/-- An export tree where the direct calendar folder FOO holds a directory
named `fake.ics` (listed first) and a real file `real.ics`. -/
def exFSC3 : FSTree :=
  FSTree.dir [("FOO", FSTree.dir
    [("fake.ics", FSTree.dir []), ("real.ics", FSTree.file "X".toList)])]

/-- C3 (counterexample): the direct subdirectory `export/FOO/` contains a
`.ics` file (`real.ics`), yet the locator returns `none`: `find` picks the
earlier `.ics`-suffixed entry, which is a directory, reading it throws, and
strategy 2 finds no dated directory. -/
theorem claim_C3_counterexample :
    (∃ t, childOf exFSC3 "FOO" = some t ∧
      (childOf t "real.ics").bind readFileOpt = some "X".toList ∧
      ".ics".toList.isSuffixOf "real.ics".toList = true)
  ∧ getLatestICS exFSC3 "FOO" = none := by
  refine ⟨⟨FSTree.dir
    [("fake.ics", FSTree.dir []), ("real.ics", FSTree.file "X".toList)],
    rfl, rfl, by decide⟩, ?_⟩
  rfl

/-- An export tree with two dated directories both containing FOO. -/
def exFSC3W : FSTree :=
  FSTree.dir
    [("2025-01-01_to_2025-01-07", FSTree.dir
        [("FOO", FSTree.dir [("old.ics", FSTree.file "OLD".toList)])]),
     ("2025-02-01_to_2025-02-07", FSTree.dir
        [("FOO", FSTree.dir [("new.ics", FSTree.file "NEW".toList)])])]

/-- Witness for C3 (amended): with two dated directories, the locator
returns the probe of the greatest candidate. -/
theorem claim_C3_amended_witness :
    getLatestICS exFSC3W "FOO" = some "NEW".toList
  ∧ ∃ d, datedCandidate exFSC3W "FOO"
        ["2025-01-01_to_2025-01-07", "2025-02-01_to_2025-02-07"] d ∧
      tryDated exFSC3W d "FOO" = some "NEW".toList ∧
      ∀ d2, datedCandidate exFSC3W "FOO"
          ["2025-01-01_to_2025-01-07", "2025-02-01_to_2025-02-07"] d2 →
        lexLe d2.toList d.toList = true :=
  ⟨rfl,
    ((claim_C3_amended exFSC3W "FOO").2 rfl).1
      ["2025-01-01_to_2025-01-07", "2025-02-01_to_2025-02-07"] rfl
      |>.1 "NEW".toList rfl⟩

/-- The merge mapping compiled into the repository's configuration. -/
def CALENDAR_MERGES : List (String × List String) :=
  [("GroupeIMP", ["IMMFA1TD01", "IMMFA1CM01"])]

/-- An export tree where the virtual name GroupeIMP also exists on disk,
alongside one of its sources. -/
def exFSC4 : FSTree :=
  FSTree.dir
    [("GroupeIMP", FSTree.dir [("cal.ics", FSTree.file "RAW".toList)]),
     ("IMMFA1TD01", FSTree.dir [("a.ics", FSTree.file docA)])]

/-- C4 (counterexample): GroupeIMP is both a merge key and a real exported
calendar; the handler serves the merged virtual calendar, not the raw
export, so the merge mapping — not the real calendar — is checked first. -/
theorem claim_C4_counterexample :
    getLatestICS exFSC4 "GroupeIMP" = some "RAW".toList
  ∧ handleCalendar CALENDAR_MERGES exFSC4 "GroupeIMP"
      = ⟨200, mergeICS [docA] "GroupeIMP".toList⟩
  ∧ handleCalendar CALENDAR_MERGES exFSC4 "GroupeIMP"
      ≠ ⟨200, "RAW".toList⟩ := by
  refine ⟨rfl, rfl, ?_⟩
  decide

/-- C4 (amended): for a non-empty name that is a merge-mapping key, the
handler always takes the merge branch — even when a real export of the same
name exists on disk — serving the merge engine's output over the resolved
sources, or the merge-specific 404 when none resolve with content. -/
theorem claim_C4_amended (merges : List (String × List String))
    (exportT : FSTree) (nm : String) (srcs : List String) (raw : List Char)
    (hnm : nm ≠ "") (hlk : lookupMerge merges nm = some srcs)
    (_hdisk : getLatestICS exportT nm = some raw) :
    handleCalendar merges exportT nm
      = if resolvedContents exportT srcs = [] then
          ⟨404, "No calendars found for merged calendar \"".toList ++
            nm.toList ++ "\"".toList⟩
        else ⟨200, mergeICS (resolvedContents exportT srcs) nm.toList⟩ := by
  rw [handleCalendar, if_neg hnm, hlk]

/-- Witness for C4 (amended) at the concrete collision tree. -/
theorem claim_C4_amended_witness :
    handleCalendar CALENDAR_MERGES exFSC4 "GroupeIMP"
      = if resolvedContents exFSC4 ["IMMFA1TD01", "IMMFA1CM01"] = [] then
          ⟨404, "No calendars found for merged calendar \"".toList ++
            "GroupeIMP".toList ++ "\"".toList⟩
        else ⟨200, mergeICS
          (resolvedContents exFSC4 ["IMMFA1TD01", "IMMFA1CM01"])
          "GroupeIMP".toList⟩ :=
  claim_C4_amended CALENDAR_MERGES exFSC4 "GroupeIMP"
    ["IMMFA1TD01", "IMMFA1CM01"] "RAW".toList (by decide) rfl rfl

/-- An export tree whose only source calendar is an empty file. -/
def exFSC7 : FSTree :=
  FSTree.dir [("SRC1", FSTree.dir [("a.ics", FSTree.file [])])]

/-- C7 (counterexample): the locator resolves the merge's only source (to
an empty document), yet the handler returns the merge-specific 404 instead
of the merge engine's output: the loop keeps only truthy (non-empty)
contents. -/
theorem claim_C7_counterexample :
    getLatestICS exFSC7 "SRC1" = some []
  ∧ handleCalendar [("M7", ["SRC1"])] exFSC7 "M7"
      = ⟨404, "No calendars found for merged calendar \"".toList ++
          "M7".toList ++ "\"".toList⟩
  ∧ handleCalendar [("M7", ["SRC1"])] exFSC7 "M7"
      ≠ ⟨200, mergeICS [[]] "M7".toList⟩ := by
  refine ⟨rfl, rfl, ?_⟩
  decide

/-- C7 (amended): for a non-empty merge-mapping key, when no source
resolves with non-empty content the handler returns a 404 whose body names
the merged calendar (sources resolving to empty documents count as
unresolved); when at least one source resolves with non-empty content it
returns the merge engine's output over the resolved contents. -/
theorem claim_C7_amended (merges : List (String × List String))
    (exportT : FSTree) (nm : String) (srcs : List String)
    (hnm : nm ≠ "") (hlk : lookupMerge merges nm = some srcs) :
    (resolvedContents exportT srcs = [] →
      handleCalendar merges exportT nm
        = ⟨404, "No calendars found for merged calendar \"".toList ++
            nm.toList ++ "\"".toList⟩
      ∧ nm.toList <:+: ("No calendars found for merged calendar \"".toList ++
          nm.toList ++ "\"".toList))
  ∧ (resolvedContents exportT srcs ≠ [] →
      handleCalendar merges exportT nm
        = ⟨200, mergeICS (resolvedContents exportT srcs) nm.toList⟩) := by
  constructor
  · intro hres
    constructor
    · rw [handleCalendar, if_neg hnm, hlk]
      simp [hres]
    · exact ⟨"No calendars found for merged calendar \"".toList,
        "\"".toList, rfl⟩
  · intro hres
    rw [handleCalendar, if_neg hnm, hlk]
    simp [hres]

/-- Witness for C7 (amended): no source resolves, 404 naming the merge. -/
theorem claim_C7_amended_witness :
    handleCalendar [("M7", ["SRC1"])] (FSTree.dir []) "M7"
      = ⟨404, "No calendars found for merged calendar \"".toList ++
          "M7".toList ++ "\"".toList⟩
  ∧ "M7".toList <:+: ("No calendars found for merged calendar \"".toList ++
      "M7".toList ++ "\"".toList) :=
  (claim_C7_amended [("M7", ["SRC1"])] (FSTree.dir []) "M7" ["SRC1"]
    (by decide) rfl).1 rfl

/-- Away from the inherited `Object.prototype` names the full handler
agrees with the own-key abstraction and returns a response. -/
theorem handleCalendarJs_eq_resp (merges : List (String × List String))
    (exportT : FSTree) (nm : String)
    (h : nm ∉ objectProtoProps ∨ (lookupMerge merges nm).isSome = true) :
    handleCalendarJs merges exportT nm
      = HandlerOutcome.resp (handleCalendar merges exportT nm) := by
  by_cases hnm : nm = ""
  · rw [handleCalendarJs, if_pos hnm, handleCalendar, if_pos hnm]
  · rw [handleCalendarJs, if_neg hnm, handleCalendar, if_neg hnm]
    match hfind : merges.find? (fun e => decide (e.1 = nm)) with
    | some e =>
      rw [jsIndexMerges, hfind, lookupMerge, hfind, Option.map_some']
      by_cases hres : resolvedContents exportT e.2 = []
      · simp [hres]
      · simp [hres]
    | none =>
      have hproto : nm ∉ objectProtoProps := by
        rcases h with h1 | h1
        · exact h1
        · rw [lookupMerge, hfind] at h1
          exact absurd h1 (by simp)
      rw [jsIndexMerges, hfind, if_neg hproto, lookupMerge, hfind,
        Option.map_none']
      cases hg : getLatestICS exportT nm with
      | none => rfl
      | some c =>
        by_cases hc : c = []
        · simp [hc]
        · simp [hc]

/-- C8 (counterexample): `toString` is not a key of the configured merge
mapping and no export backs it, yet the handler does not return the 404
response: the property access `CALENDAR_MERGES["toString"]` finds the
inherited `Object.prototype.toString`, the truthiness test at the merge
branch passes, and the `for...of` over the non-iterable function value
throws a TypeError that escapes the route handler. -/
theorem claim_C8_counterexample :
    lookupMerge CALENDAR_MERGES "toString" = none
  ∧ getLatestICS (FSTree.dir []) "toString" = none
  ∧ handleCalendarJs CALENDAR_MERGES (FSTree.dir []) "toString"
      = HandlerOutcome.thrown
  ∧ handleCalendarJs CALENDAR_MERGES (FSTree.dir []) "toString"
      ≠ HandlerOutcome.resp ⟨404, "Calendar not found".toList⟩ := by
  refine ⟨rfl, rfl, by decide, by decide⟩

/-- C8 (amended): requesting a non-empty calendar name that is neither a
merge-mapping key nor an inherited `Object.prototype` property name
(`toString`, `constructor`, `__proto__`, ...) nor resolvable by the export
locator yields exactly the 404 plain-text response and no exception; for
the inherited prototype names the merge branch is entered instead and the
iteration over the inherited non-iterable value throws. -/
theorem claim_C8_amended (merges : List (String × List String))
    (exportT : FSTree) (nm : String) (hnm : nm ≠ "")
    (hlk : lookupMerge merges nm = none)
    (hproto : nm ∉ objectProtoProps)
    (hloc : getLatestICS exportT nm = none) :
    handleCalendarJs merges exportT nm
      = HandlerOutcome.resp ⟨404, "Calendar not found".toList⟩ := by
  have hfind : merges.find? (fun e => decide (e.1 = nm)) = none := by
    cases hf : merges.find? (fun e => decide (e.1 = nm)) with
    | none => rfl
    | some e =>
      rw [lookupMerge, hf] at hlk
      exact absurd hlk (by simp)
  rw [handleCalendarJs, if_neg hnm, jsIndexMerges, hfind, if_neg hproto, hloc]

/-- Witness for C8 (amended) at a concrete unknown, non-prototype name. -/
theorem claim_C8_amended_witness :
    handleCalendarJs CALENDAR_MERGES (FSTree.dir []) "NOPE"
      = HandlerOutcome.resp ⟨404, "Calendar not found".toList⟩ :=
  claim_C8_amended CALENDAR_MERGES (FSTree.dir []) "NOPE" (by decide) rfl
    (by decide) rfl
